import Mathlib

/-!
Verification of the exact Fibonacci computation engines of the
fibonacci_experiment repository.

The development shallowly embeds the C++ sources:
  * `cpp_version/fib_stairs_fastdoubling.cpp` (namespace `FastDoubling`):
    the recursive and iterative fast-doubling engines and the
    `fibonacci_exact` wrapper with its negative-index check;
  * `cpp_version/fib_stairs.cpp` (namespace `FibStairs`): the 2x2-matrix
    exponentiation engine (`matrix_mult`, `matrix_pow`, `fibonacci_exact`);
  * `fastfib/fib_bindings_fastdoubling.cpp` (namespace `BindingsFD`) and
    `fastfib/fib_bindings_matrix_backup.cpp` (namespace `BindingsMatrix`):
    the binding-layer functions `fibonacci`, `fibonacci_range` and
    `fibonacci_digit_count`.

GMP's `mpz_class` is embedded as `Int` (an arbitrary-precision signed
integer, exactly GMP's value semantics for the operations the code uses:
add, subtract, multiply, compare).  The decimal-conversion and digit-count
primitives of GMP are embedded as `mpz_get_str` and `mpz_sizeinbase10`
below, exact per the big-integer operation contract of spec section 6.
Thrown `std::invalid_argument` exceptions are embedded as `Except` values;
the process-wide OpenMP thread-count setting mutated by
`omp_set_num_threads` is embedded as explicit `OmpState` passing.

The reference function `fibSpec` is the specification's defining
recurrence F(0)=0, F(1)=1, F(n+2)=F(n+1)+F(n); every correctness theorem
compares an embedded engine against `fibSpec`.
-/

/-- Mathematical Fibonacci sequence exactly as the specification defines it:
F(0) = 0, F(1) = 1 and F(n+2) = F(n+1) + F(n). -/
def fibSpec : Nat → Nat
  | 0 => 0
  | 1 => 1
  | n + 2 => fibSpec (n + 1) + fibSpec n

/-- Error raised by the C++ code.  The only exception the embedded
functions ever throw is `std::invalid_argument`, carried here with its
message string (the spec's `InvalidArgument` error). -/
inductive FibError where
  | invalidArgument (msg : String)
deriving DecidableEq

/-- The process-wide OpenMP configuration touched by the bindings: the
thread-count setting read by `omp_get_max_threads` and written by
`omp_set_num_threads`. -/
structure OmpState where
  numThreads : Int
deriving DecidableEq

/-- Embeds `omp_set_num_threads(n)`: overwrites the process-wide
thread-count setting. -/
def omp_set_num_threads (n : Int) (_st : OmpState) : OmpState := ⟨n⟩

/-- Embeds `omp_get_max_threads()`: reads the process-wide thread-count
setting. -/
def omp_get_max_threads (st : OmpState) : Int := st.numThreads

/-- Embeds GMP's `mpz_class::get_str()` (base-10 conversion): the decimal
string of the integer, with a leading minus sign when negative.  The
big-integer primitive is an external collaborator; spec section 6 states
its operations are exact. -/
def mpz_get_str (m : Int) : String :=
  if m < 0 then "-" ++ Nat.repr (-m).toNat else Nat.repr m.toNat

/-- Embeds GMP's `mpz_sizeinbase(x, 10)` on the values the code passes it
(non-negative): the number of decimal digits, i.e. the length of the
decimal representation.  Spec section 6 assumes the primitive's digit
count is exact, so the embedding returns the exact digit count. -/
def mpz_sizeinbase10 (m : Int) : Int :=
  ((Nat.repr m.toNat).length : Nat)

namespace FastDoubling

/-- Body of one iteration of the bit-scanning loop of
`fibonacci_fast_doubling_iterative` (fib_stairs_fastdoubling.cpp lines
62-78): from the running pair (fk, fk1) compute
f2k = fk * (2*fk1 - fk) and f2k1 = fk1*fk1 + fk*fk, then advance to
(f2k1, f2k + f2k1) when the scanned bit is 1 and to (f2k, f2k1) when it
is 0.  The recursive helper's lines 31-41 perform the same arithmetic
with the branch decided by `n % 2`. -/
def fd_step (p : Int × Int) (bit : Bool) : Int × Int :=
  let fk := p.1
  let fk1 := p.2
  let f2k := fk * (2 * fk1 - fk)
  let f2k1 := fk1 * fk1 + fk * fk
  if bit then (f2k1, f2k + f2k1) else (f2k, f2k1)

/-- Fuel-based rendering of the bit-length while loop of
fib_stairs_fastdoubling.cpp lines 51-56 (`while (temp > 0) { bit_length++;
temp >>= 1; }`).  The fuel only bounds the iteration count; the loop on
`t` halves `t` each round, so any fuel with `t <= fuel` (the code runs it
with fuel `t` via `bit_length`) is never exhausted before `t` reaches 0. -/
def bit_length_aux : Nat → Nat → Nat
  | 0, _ => 0
  | _ + 1, 0 => 0
  | fuel + 1, t + 1 => bit_length_aux fuel ((t + 1) / 2) + 1

/-- Bit length of `n`, as computed by the while loop of
fib_stairs_fastdoubling.cpp lines 51-56. -/
def bit_length (n : Nat) : Nat := bit_length_aux n n

/-- The for loop of fib_stairs_fastdoubling.cpp lines 62-78: starting
from (fk, fk1) = (0, 1), `fd_loop n L k` is the running pair after the
first `k` iterations, which scan the bits of `n` at positions
L-1, L-2, ..., L-k (the source tests each bit with `(n >> i) & 1`). -/
def fd_loop (n : Nat) (L : Nat) : Nat → Int × Int
  | 0 => (0, 1)
  | k + 1 => fd_step (fd_loop n L k) (Nat.testBit n (L - (k + 1)))

/-- Embeds `fibonacci_fast_doubling_iterative` (fib_stairs_fastdoubling.cpp
lines 45-81, duplicated verbatim in fib_bindings_fastdoubling.cpp lines
20-56): return (0, 1) for n = 0, otherwise scan the bits of n from the
most significant down, running the doubling step at each bit.  The C++
takes a `long long`; its bit-length loop and bit tests read the value
through `> 0` guards and right shifts, so a negative argument yields bit
length 0 and the loop body never runs, exactly the `n.toNat = 0` path
here.  For n >= 0 the two readings agree bit for bit. -/
def fibonacci_fast_doubling_iterative (n : Int) : Int × Int :=
  if n = 0 then (0, 1)
  else fd_loop n.toNat (bit_length n.toNat) (bit_length n.toNat)

/-- Embeds the recursive `fibonacci_fast_doubling_helper`
(fib_stairs_fastdoubling.cpp lines 23-42) on the non-negative arguments
the claims quantify over: recurse on n / 2, then
c = fk * (2*fk1 - fk), d = fk1*fk1 + fk*fk, returning (c, d) when n is
even and (d, c + d) when n is odd. -/
def fibonacci_fast_doubling_helper : Nat → Int × Int
  | 0 => (0, 1)
  | n + 1 =>
    let p := fibonacci_fast_doubling_helper ((n + 1) / 2)
    let fk := p.1
    let fk1 := p.2
    let c := fk * (2 * fk1 - fk)
    let d := fk1 * fk1 + fk * fk
    if (n + 1) % 2 = 0 then (c, d) else (d, c + d)
decreasing_by omega

/-- Embeds `fibonacci_exact` of fib_stairs_fastdoubling.cpp lines 84-91:
throw `std::invalid_argument` for negative n, otherwise the first
component of the iterative fast-doubling pair.  (The identical
`fibonacci_exact_gmp` of fib_bindings_fastdoubling.cpp lines 59-66 is
embedded by `BindingsFD.fibonacci_exact_gmp` below.) -/
def fibonacci_exact (n : Int) : Except FibError Int :=
  if n < 0 then .error (.invalidArgument "n must be non-negative")
  else .ok (fibonacci_fast_doubling_iterative n).1

end FastDoubling

namespace FibStairs

/-- Embeds the `Matrix2x2` struct of fib_stairs.cpp lines 19-25:
four arbitrary-precision integers [[a, b], [c, d]]. -/
structure Matrix2x2 where
  a : Int
  b : Int
  c : Int
  d : Int
deriving DecidableEq

/-- Embeds `matrix_mult` (fib_stairs.cpp lines 28-35): the
non-commutative 2x2 matrix product. -/
def matrix_mult (A B : Matrix2x2) : Matrix2x2 :=
  ⟨A.a * B.a + A.b * B.c,
   A.a * B.b + A.b * B.d,
   A.c * B.a + A.d * B.c,
   A.c * B.b + A.d * B.d⟩

/-- The while loop of `matrix_pow` (fib_stairs.cpp lines 48-54): while
n > 0, multiply `result` by `base` when the low bit of n is set, square
`base`, and shift n right by one.  The C++ updates `result` before
squaring `base`, which the recursive call reproduces. -/
def matrix_pow_loop (result base : Matrix2x2) (n : Int) : Matrix2x2 :=
  if 0 < n then
    matrix_pow_loop (if n % 2 = 1 then matrix_mult result base else result)
      (matrix_mult base base) (n / 2)
  else result
termination_by n.toNat
decreasing_by omega

/-- Embeds `matrix_pow` (fib_stairs.cpp lines 38-57): identity for
n = 0, `base` for n = 1, otherwise the square-and-multiply loop. -/
def matrix_pow (base : Matrix2x2) (n : Int) : Matrix2x2 :=
  if n = 0 then ⟨1, 0, 0, 1⟩
  else if n = 1 then base
  else matrix_pow_loop ⟨1, 0, 0, 1⟩ base n

/-- Embeds `fibonacci_exact` of fib_stairs.cpp lines 60-73 (the matrix
engine, duplicated verbatim in verify.cpp and as `fibonacci_exact_gmp`
in fib_bindings_matrix_backup.cpp): F(0), F(1), F(2) returned directly,
otherwise the top-left entry of [[1,1],[1,0]]^(n-1).  Note the function
performs no negative-index check. -/
def fibonacci_exact (n : Int) : Int :=
  if n = 0 then 0
  else if n = 1 then 1
  else if n = 2 then 1
  else (matrix_pow ⟨1, 1, 1, 0⟩ (n - 1)).a

/-- Reference k-th matrix power (identity at 0, one right-multiplication
by `A` per step); the yardstick against which the square-and-multiply
`matrix_pow` is proved correct. -/
def mpow (A : Matrix2x2) : Nat → Matrix2x2
  | 0 => ⟨1, 0, 0, 1⟩
  | k + 1 => matrix_mult (mpow A k) A

end FibStairs

namespace BindingsFD

/-- Embeds `fibonacci_exact_gmp` of fib_bindings_fastdoubling.cpp lines
59-66: negative-index check, then the first component of the iterative
fast-doubling pair (the binding file's copy of the iterative engine is
line-for-line the one embedded by
`FastDoubling.fibonacci_fast_doubling_iterative`). -/
def fibonacci_exact_gmp (n : Int) : Except FibError Int :=
  if n < 0 then .error (.invalidArgument "n must be non-negative")
  else .ok (FastDoubling.fibonacci_fast_doubling_iterative n).1

/-- Embeds the binding-level `fibonacci` of fib_bindings_fastdoubling.cpp
lines 69-76: negative-index check, then the decimal string of the
computed value. -/
def fibonacci (n : Int) : Except FibError String :=
  if n < 0 then .error (.invalidArgument "n must be non-negative")
  else (fibonacci_exact_gmp n).map mpz_get_str

/-- The parallel for loop of `fibonacci_range`
(fib_bindings_fastdoubling.cpp lines 111-116), which fills slot i with
`fibonacci_exact_gmp(start + i).get_str()` for i = 0 .. total-1; each
slot is written independently, and a thrown exception aborts the job.
The loop is rendered by recursion on the number of remaining slots. -/
def fill_results (start : Int) : Nat → Except FibError (List String)
  | 0 => .ok []
  | t + 1 =>
    match fibonacci_exact_gmp start, fill_results (start + 1) t with
    | .ok v, .ok rest => .ok (mpz_get_str v :: rest)
    | .error e, _ => .error e
    | .ok _, .error e => .error e

/-- Embeds `fibonacci_range` (fib_bindings_fastdoubling.cpp lines
93-119): reject a negative start or end and start > end with
`std::invalid_argument`; call `omp_set_num_threads(num_threads)` when
`num_threads` is positive and `omp_set_num_threads(omp_get_max_threads())`
otherwise; then fill the result buffer of `end - start + 1` slots. -/
def fibonacci_range (start end_ num_threads : Int) (st : OmpState) :
    Except FibError (List String × OmpState) :=
  if start < 0 ∨ end_ < 0 then
    .error (.invalidArgument "start and end must be non-negative")
  else if start > end_ then
    .error (.invalidArgument "start must be <= end")
  else
    let st1 := if num_threads > 0 then omp_set_num_threads num_threads st
               else omp_set_num_threads (omp_get_max_threads st) st
    match fill_results start (end_ - start + 1).toNat with
    | .ok results => .ok (results, st1)
    | .error e => .error e

/-- Embeds `fibonacci_digit_count` (fib_bindings_fastdoubling.cpp lines
199-207): negative-index check, 1 for n = 0, otherwise the base-10
digit count of the fast-doubling value. -/
def fibonacci_digit_count (n : Int) : Except FibError Int :=
  if n < 0 then .error (.invalidArgument "n must be non-negative")
  else if n = 0 then .ok 1
  else (fibonacci_exact_gmp n).map mpz_sizeinbase10

end BindingsFD

namespace BindingsMatrix

/-- Embeds `fibonacci_exact_gmp` of fib_bindings_matrix_backup.cpp lines
59-68, whose body (and its `Matrix2x2`, `matrix_mult`, `matrix_pow`
helpers) is line-for-line the matrix engine of fib_stairs.cpp embedded
by `FibStairs.fibonacci_exact`. -/
def fibonacci_exact_gmp (n : Int) : Int := FibStairs.fibonacci_exact n

/-- Embeds the binding-level `fibonacci` of fib_bindings_matrix_backup.cpp
lines 71-78: negative-index check, then the decimal string of the
computed value. -/
def fibonacci (n : Int) : Except FibError String :=
  if n < 0 then .error (.invalidArgument "n must be non-negative")
  else .ok (mpz_get_str (fibonacci_exact_gmp n))

/-- The parallel for loop of `fibonacci_range`
(fib_bindings_matrix_backup.cpp lines 113-118): slot i holds
`fibonacci_exact_gmp(start + i).get_str()`; the matrix-engine
`fibonacci_exact_gmp` throws nothing, so the fill is total. -/
def fill_results (start : Int) (total : Nat) : List String :=
  (List.range total).map fun i => mpz_get_str (fibonacci_exact_gmp (start + ↑i))

/-- Embeds `fibonacci_range` (fib_bindings_matrix_backup.cpp lines
95-121): the same validation and thread-count handling as the
fast-doubling binding, filling the buffer with the matrix engine. -/
def fibonacci_range (start end_ num_threads : Int) (st : OmpState) :
    Except FibError (List String × OmpState) :=
  if start < 0 ∨ end_ < 0 then
    .error (.invalidArgument "start and end must be non-negative")
  else if start > end_ then
    .error (.invalidArgument "start must be <= end")
  else
    let st1 := if num_threads > 0 then omp_set_num_threads num_threads st
               else omp_set_num_threads (omp_get_max_threads st) st
    .ok (fill_results start (end_ - start + 1).toNat, st1)

/-- Embeds `fibonacci_digit_count` (fib_bindings_matrix_backup.cpp lines
201-209): negative-index check, 1 for n = 0, otherwise the base-10
digit count of the matrix-engine value. -/
def fibonacci_digit_count (n : Int) : Except FibError Int :=
  if n < 0 then .error (.invalidArgument "n must be non-negative")
  else if n = 0 then .ok 1
  else .ok (mpz_sizeinbase10 (fibonacci_exact_gmp n))

end BindingsMatrix

/-! ## Helper lemmas

The specification recurrence, the fast-doubling identities over `Int`,
and the correctness of each embedded engine against `Nat.fib`. -/

/-- The spec's recurrence `fibSpec` is Mathlib's `Nat.fib`. -/
theorem fibSpec_eq_fib : ∀ n : Nat, fibSpec n = Nat.fib n
  | 0 => rfl
  | 1 => rfl
  | n + 2 => by
    rw [fibSpec, Nat.fib_add_two, fibSpec_eq_fib (n + 1), fibSpec_eq_fib n, Nat.add_comm]

theorem fib_le_two_mul_fib_succ (q : Nat) : Nat.fib q ≤ 2 * Nat.fib (q + 1) :=
  le_trans Nat.fib_le_fib_succ (by omega)

/-- The doubling identity for the first component, over `Int` exactly as
the code computes it: fk * (2*fk1 - fk) = F(2k). -/
theorem fib_double_c (q : Nat) :
    (Nat.fib q : Int) * (2 * (Nat.fib (q + 1) : Int) - (Nat.fib q : Int))
      = (Nat.fib (2 * q) : Int) := by
  rw [Nat.fib_two_mul, Nat.cast_mul, Nat.cast_sub (fib_le_two_mul_fib_succ q)]
  push_cast
  ring

/-- The doubling identity for the second component, over `Int` exactly as
the code computes it: fk1*fk1 + fk*fk = F(2k+1). -/
theorem fib_double_d (q : Nat) :
    (Nat.fib (q + 1) : Int) * (Nat.fib (q + 1) : Int)
        + (Nat.fib q : Int) * (Nat.fib q : Int)
      = (Nat.fib (2 * q + 1) : Int) := by
  rw [Nat.fib_two_mul_add_one]
  push_cast
  ring

/-- One doubling step advances a correct pair (F(q), F(q+1)) to the
correct pair at index 2q + bit. -/
theorem fd_step_fib (q : Nat) (b : Bool) :
    FastDoubling.fd_step ((Nat.fib q : Int), (Nat.fib (q + 1) : Int)) b
      = ((Nat.fib (2 * q + b.toNat) : Int), (Nat.fib (2 * q + b.toNat + 1) : Int)) := by
  cases b with
  | false =>
    simp only [FastDoubling.fd_step, Bool.toNat_false, Nat.add_zero, Bool.false_eq_true,
      if_false, Prod.mk.injEq]
    exact ⟨fib_double_c q, fib_double_d q⟩
  | true =>
    simp only [FastDoubling.fd_step, Bool.toNat_true, if_true, Prod.mk.injEq]
    refine ⟨fib_double_d q, ?_⟩
    rw [fib_double_c q, fib_double_d q, show 2 * q + 1 + 1 = 2 * q + 2 from rfl,
      Nat.fib_add_two]
    push_cast
    ring

/-- The fuel-based bit-length loop yields an exponent bounding its input
whenever the fuel is at least the input. -/
theorem bit_length_aux_lt : ∀ fuel t : Nat, t ≤ fuel → t < 2 ^ FastDoubling.bit_length_aux fuel t := by
  intro fuel
  induction fuel with
  | zero =>
    intro t ht
    have h0 : t = 0 := by omega
    subst h0
    simp [FastDoubling.bit_length_aux]
  | succ f ih =>
    intro t ht
    cases t with
    | zero => simp [FastDoubling.bit_length_aux]
    | succ s =>
      have h1 : (s + 1) / 2 ≤ f := by omega
      have h2 := ih ((s + 1) / 2) h1
      simp only [FastDoubling.bit_length_aux, pow_succ]
      omega

theorem n_lt_two_pow_bit_length (n : Nat) : n < 2 ^ FastDoubling.bit_length n :=
  bit_length_aux_lt n n le_rfl

/-- Invariant of the iterative bit-scan: after k iterations the running
pair is (F(m), F(m+1)) where m is the number formed by the k
most-significant bits of n. -/
theorem fd_loop_fib (n L : Nat) (hn : n < 2 ^ L) :
    ∀ k, k ≤ L →
      FastDoubling.fd_loop n L k
        = ((Nat.fib (n / 2 ^ (L - k)) : Int), (Nat.fib (n / 2 ^ (L - k) + 1) : Int)) := by
  intro k
  induction k with
  | zero =>
    intro _
    have h0 : n / 2 ^ L = 0 := Nat.div_eq_of_lt hn
    simp [FastDoubling.fd_loop, Nat.sub_zero, h0]
  | succ k ih =>
    intro hk
    have hk1 : k ≤ L := by omega
    have hrec := ih hk1
    have hLk : L - k = (L - (k + 1)) + 1 := by omega
    have hdiv : n / 2 ^ (L - (k + 1)) / 2 = n / 2 ^ ((L - (k + 1)) + 1) := by
      rw [Nat.div_div_eq_div_mul, pow_succ]
    have hbit : (Nat.testBit n (L - (k + 1))).toNat = n / 2 ^ (L - (k + 1)) % 2 := by
      rw [Nat.testBit_to_div_mod]
      rcases Nat.mod_two_eq_zero_or_one (n / 2 ^ (L - (k + 1))) with h | h <;> simp [h]
    have hidx : 2 * (n / 2 ^ ((L - (k + 1)) + 1)) + (Nat.testBit n (L - (k + 1))).toNat
        = n / 2 ^ (L - (k + 1)) := by
      rw [hbit, ← hdiv]
      omega
    rw [FastDoubling.fd_loop, hrec, hLk, fd_step_fib, hidx]

/-- The iterative fast-doubling engine returns (F(n), F(n+1)) for every
non-negative index. -/
theorem fd_iterative_eq_fib (n : Nat) :
    FastDoubling.fibonacci_fast_doubling_iterative (n : Int)
      = ((Nat.fib n : Int), (Nat.fib (n + 1) : Int)) := by
  rcases Nat.eq_zero_or_pos n with h | h
  · subst h
    simp [FastDoubling.fibonacci_fast_doubling_iterative]
  · have hne : (n : Int) ≠ 0 := by
      intro hc
      omega
    rw [FastDoubling.fibonacci_fast_doubling_iterative, if_neg hne]
    have ht : ((n : Int)).toNat = n := Int.toNat_natCast n
    rw [ht]
    have hmain := fd_loop_fib n (FastDoubling.bit_length n)
      (n_lt_two_pow_bit_length n) (FastDoubling.bit_length n) le_rfl
    simpa using hmain

/-- The recursive fast-doubling helper returns (F(n), F(n+1)) for every
non-negative index. -/
theorem fd_helper_eq_fib (n : Nat) :
    FastDoubling.fibonacci_fast_doubling_helper n
      = ((Nat.fib n : Int), (Nat.fib (n + 1) : Int)) := by
  induction n using Nat.strong_induction_on with
  | _ n ih =>
    match n with
    | 0 => simp [FastDoubling.fibonacci_fast_doubling_helper]
    | m + 1 =>
      have hlt : (m + 1) / 2 < m + 1 := Nat.div_lt_self (Nat.succ_pos m) one_lt_two
      have hp := ih ((m + 1) / 2) hlt
      rw [FastDoubling.fibonacci_fast_doubling_helper, hp]
      simp only []
      rcases Nat.mod_two_eq_zero_or_one (m + 1) with hpar | hpar
      · rw [if_pos hpar]
        have h2 : 2 * ((m + 1) / 2) = m + 1 := by omega
        rw [Prod.mk.injEq]
        constructor
        · rw [fib_double_c, h2]
        · rw [fib_double_d, h2]
      · rw [if_neg (by omega)]
        have h2 : 2 * ((m + 1) / 2) + 1 = m + 1 := by omega
        rw [Prod.mk.injEq]
        constructor
        · rw [fib_double_d, h2]
        · rw [fib_double_c, fib_double_d, h2]
          have h4 : m + 1 + 1 = 2 * ((m + 1) / 2) + 2 := by omega
          rw [h4, Nat.fib_add_two]
          push_cast
          rw [h2]

/-! Matrix-engine lemmas. -/

theorem matrix_mult_assoc (A B C : FibStairs.Matrix2x2) :
    FibStairs.matrix_mult (FibStairs.matrix_mult A B) C
      = FibStairs.matrix_mult A (FibStairs.matrix_mult B C) := by
  simp only [FibStairs.matrix_mult, FibStairs.Matrix2x2.mk.injEq]
  refine ⟨by ring, by ring, by ring, by ring⟩

theorem matrix_mult_id_left (A : FibStairs.Matrix2x2) :
    FibStairs.matrix_mult ⟨1, 0, 0, 1⟩ A = A := by
  cases A with
  | mk a b c d =>
    simp only [FibStairs.matrix_mult, FibStairs.Matrix2x2.mk.injEq]
    refine ⟨by ring, by ring, by ring, by ring⟩

theorem matrix_mult_id_right (A : FibStairs.Matrix2x2) :
    FibStairs.matrix_mult A ⟨1, 0, 0, 1⟩ = A := by
  cases A with
  | mk a b c d =>
    simp only [FibStairs.matrix_mult, FibStairs.Matrix2x2.mk.injEq]
    refine ⟨by ring, by ring, by ring, by ring⟩

/-- A matrix commutes with its own powers. -/
theorem mpow_mul_comm (A : FibStairs.Matrix2x2) (k : Nat) :
    FibStairs.matrix_mult A (FibStairs.mpow A k)
      = FibStairs.matrix_mult (FibStairs.mpow A k) A := by
  induction k with
  | zero => rw [FibStairs.mpow, matrix_mult_id_left, matrix_mult_id_right]
  | succ k ih => rw [FibStairs.mpow, ← matrix_mult_assoc, ih]

/-- Powers of the square are even powers. -/
theorem mpow_sq (A : FibStairs.Matrix2x2) (k : Nat) :
    FibStairs.mpow (FibStairs.matrix_mult A A) k = FibStairs.mpow A (2 * k) := by
  induction k with
  | zero => rfl
  | succ k ih =>
    have h : 2 * (k + 1) = 2 * k + 1 + 1 := by ring
    rw [h]
    simp only [FibStairs.mpow]
    rw [ih, ← matrix_mult_assoc]

/-- The square-and-multiply while loop computes `result * base^n`. -/
theorem matrix_pow_loop_eq (k : Nat) :
    ∀ R B : FibStairs.Matrix2x2,
      FibStairs.matrix_pow_loop R B (k : Int)
        = FibStairs.matrix_mult R (FibStairs.mpow B k) := by
  induction k using Nat.strong_induction_on with
  | _ k ih =>
    intro R B
    rw [FibStairs.matrix_pow_loop]
    rcases Nat.eq_zero_or_pos k with h0 | hpos
    · subst h0
      rw [if_neg (by omega), FibStairs.mpow, matrix_mult_id_right]
    · have hc : (0 : Int) < (k : Int) := by exact_mod_cast hpos
      rw [if_pos hc]
      have hdiv : ((k : Int)) / 2 = ((k / 2 : Nat) : Int) := by omega
      rw [hdiv, ih (k / 2) (Nat.div_lt_self hpos one_lt_two), mpow_sq]
      rcases Nat.mod_two_eq_zero_or_one k with hpar | hpar
      · rw [if_neg (by omega)]
        have h2 : 2 * (k / 2) = k := by omega
        rw [h2]
      · rw [if_pos (by omega)]
        have h2 : k = 2 * (k / 2) + 1 := by omega
        conv_rhs => rw [h2]
        simp only [FibStairs.mpow]
        rw [matrix_mult_assoc, mpow_mul_comm]

/-- `matrix_pow` computes the reference power on non-negative exponents. -/
theorem matrix_pow_eq_mpow (B : FibStairs.Matrix2x2) (k : Nat) :
    FibStairs.matrix_pow B (k : Int) = FibStairs.mpow B k := by
  simp only [FibStairs.matrix_pow]
  by_cases h0 : (k : Int) = 0
  · rw [if_pos h0]
    have hk : k = 0 := by omega
    subst hk
    rfl
  · rw [if_neg h0]
    by_cases h1 : (k : Int) = 1
    · rw [if_pos h1]
      have hk : k = 1 := by omega
      subst hk
      rw [FibStairs.mpow, FibStairs.mpow, matrix_mult_id_left]
    · rw [if_neg h1, matrix_pow_loop_eq k ⟨1, 0, 0, 1⟩ B, matrix_mult_id_left]

/-- Entries of the k-th power of [[1,1],[1,0]] are Fibonacci numbers. -/
theorem mpow_fib_entries (k : Nat) :
    FibStairs.mpow ⟨1, 1, 1, 0⟩ k
      = ⟨(Nat.fib (k + 1) : Int), (Nat.fib k : Int), (Nat.fib k : Int),
         (Nat.fib (k + 1) : Int) - (Nat.fib k : Int)⟩ := by
  induction k with
  | zero =>
    simp only [FibStairs.mpow, FibStairs.Matrix2x2.mk.injEq]
    norm_num [Nat.fib_one]
  | succ k ih =>
    rw [FibStairs.mpow, ih]
    simp only [FibStairs.matrix_mult, FibStairs.Matrix2x2.mk.injEq]
    refine ⟨?_, by ring, by ring, ?_⟩
    · rw [show k + 1 + 1 = k + 2 from rfl, Nat.fib_add_two]
      push_cast
      ring
    · rw [show k + 1 + 1 = k + 2 from rfl, Nat.fib_add_two]
      push_cast
      ring

/-- The matrix-exponentiation engine returns F(n) for every non-negative
index. -/
theorem matrix_exact_eq_fib (n : Nat) :
    FibStairs.fibonacci_exact (n : Int) = (Nat.fib n : Int) := by
  match n with
  | 0 => simp [FibStairs.fibonacci_exact]
  | 1 => simp [FibStairs.fibonacci_exact]
  | 2 => simp [FibStairs.fibonacci_exact, Nat.fib_two]
  | m + 3 =>
    have h0 : ¬(((m + 3 : Nat) : Int) = 0) := by push_cast; omega
    have h1 : ¬(((m + 3 : Nat) : Int) = 1) := by push_cast; omega
    have h2 : ¬(((m + 3 : Nat) : Int) = 2) := by push_cast; omega
    rw [FibStairs.fibonacci_exact, if_neg h0, if_neg h1, if_neg h2]
    have hsub : ((m + 3 : Nat) : Int) - 1 = ((m + 2 : Nat) : Int) := by push_cast; ring
    rw [hsub, matrix_pow_eq_mpow, mpow_fib_entries]

/-! Binding-layer lemmas. -/

/-- The fast-doubling binding engine succeeds with F(n) on casts of
natural numbers. -/
theorem fd_exact_gmp_ok (n : Nat) :
    BindingsFD.fibonacci_exact_gmp (n : Int) = .ok ((Nat.fib n : Int)) := by
  rw [BindingsFD.fibonacci_exact_gmp, if_neg (by omega), fd_iterative_eq_fib]

/-- The fast-doubling binding engine succeeds with F(n) on every
non-negative integer. -/
theorem fd_exact_gmp_ok_int (n : Int) (hn : 0 ≤ n) :
    BindingsFD.fibonacci_exact_gmp n = .ok ((Nat.fib n.toNat : Int)) := by
  obtain ⟨m, rfl⟩ : ∃ m : Nat, n = (m : Int) := ⟨n.toNat, by omega⟩
  rw [Int.toNat_natCast]
  exact fd_exact_gmp_ok m

theorem mpz_get_str_natCast (v : Nat) : mpz_get_str (v : Int) = Nat.repr v := by
  rw [mpz_get_str, if_neg (by omega), Int.toNat_natCast]

/-- The fast-doubling range fill succeeds, slot i holding the decimal
string of F(start + i). -/
theorem fill_results_ok : ∀ (total : Nat) (start : Int), 0 ≤ start →
    BindingsFD.fill_results start total
      = .ok ((List.range total).map fun i : Nat => Nat.repr (Nat.fib (start + (i : Int)).toNat)) := by
  intro total
  induction total with
  | zero => intro start _; rfl
  | succ t ih =>
    intro start h
    rw [BindingsFD.fill_results, fd_exact_gmp_ok_int start h, ih (start + 1) (by omega)]
    simp only [List.range_succ_eq_map, List.map_cons, List.map_map, mpz_get_str_natCast]
    refine congrArg Except.ok ?_
    refine congrArg₂ List.cons ?_ ?_
    · norm_num
    · apply List.map_congr_left
      intro i _
      simp only [Function.comp]
      congr 2
      omega

/-- The matrix-engine range fill: slot i holds the decimal string of
F(start + i). -/
theorem matrix_fill_results_eq (start : Int) (h : 0 ≤ start) (total : Nat) :
    BindingsMatrix.fill_results start total
      = (List.range total).map fun i : Nat => Nat.repr (Nat.fib (start + (i : Int)).toNat) := by
  rw [BindingsMatrix.fill_results]
  apply List.map_congr_left
  intro i _
  obtain ⟨m, hm⟩ : ∃ m : Nat, start + (i : Int) = (m : Int) :=
    ⟨(start + (i : Int)).toNat, by omega⟩
  rw [hm, BindingsMatrix.fibonacci_exact_gmp, matrix_exact_eq_fib m, mpz_get_str_natCast,
    Int.toNat_natCast]

/-- A successful fast-doubling `fibonacci_range` call: the buffer and the
updated thread-count state. -/
theorem fd_range_ok (start end_ nt : Int) (st : OmpState) (h1 : 0 ≤ start)
    (h2 : start ≤ end_) :
    BindingsFD.fibonacci_range start end_ nt st
      = .ok ((List.range (end_ - start + 1).toNat).map
               (fun i : Nat => Nat.repr (Nat.fib (start + (i : Int)).toNat)),
             if nt > 0 then omp_set_num_threads nt st
             else omp_set_num_threads (omp_get_max_threads st) st) := by
  rw [BindingsFD.fibonacci_range]
  rw [if_neg (by omega), if_neg (by omega)]
  simp only [fill_results_ok (end_ - start + 1).toNat start h1]

/-- A successful matrix-engine `fibonacci_range` call: the buffer and the
updated thread-count state. -/
theorem matrix_range_ok (start end_ nt : Int) (st : OmpState) (h1 : 0 ≤ start)
    (h2 : start ≤ end_) :
    BindingsMatrix.fibonacci_range start end_ nt st
      = .ok ((List.range (end_ - start + 1).toNat).map
               (fun i : Nat => Nat.repr (Nat.fib (start + (i : Int)).toNat)),
             if nt > 0 then omp_set_num_threads nt st
             else omp_set_num_threads (omp_get_max_threads st) st) := by
  rw [BindingsMatrix.fibonacci_range]
  rw [if_neg (by omega), if_neg (by omega)]
  simp only [matrix_fill_results_eq start h1 (end_ - start + 1).toNat]

/-! ## Claim theorems -/

/-- Claim C1: for every index n >= 0, the iterative fast-doubling engine
returns the pair (F(n), F(n+1)) of the standard Fibonacci sequence
defined by F(0)=0, F(1)=1, F(n+2)=F(n+1)+F(n): the first component of
`fibonacci_fast_doubling_iterative(n)` is F(n) and the second is F(n+1). -/
theorem claim_C1_fast_doubling_iterative_returns_fib_pair (n : Nat) :
    FastDoubling.fibonacci_fast_doubling_iterative (n : Int)
      = ((fibSpec n : Int), (fibSpec (n + 1) : Int)) := by
  rw [fd_iterative_eq_fib, fibSpec_eq_fib n, fibSpec_eq_fib (n + 1)]

/-- Claim C2: for every index n >= 0, the matrix-exponentiation engine
returns F(n); moreover the binary square-and-multiply power of
M = [[1,1],[1,0]] has F(k+1) as its top-left entry, so the top-left entry
of M^(n-1) used for n >= 3 equals F(n). -/
theorem claim_C2_matrix_engine_returns_fib (n : Nat) :
    FibStairs.fibonacci_exact (n : Int) = (fibSpec n : Int)
      ∧ (FibStairs.matrix_pow ⟨1, 1, 1, 0⟩ (n : Int)).a = (fibSpec (n + 1) : Int) := by
  constructor
  · rw [matrix_exact_eq_fib, fibSpec_eq_fib]
  · rw [matrix_pow_eq_mpow, mpow_fib_entries, fibSpec_eq_fib]

/-- Claim C3: for every index n >= 0, the fast-doubling engine and the
matrix-exponentiation engine return the identical big-integer value:
the fast-doubling `fibonacci_exact` succeeds with exactly the value the
matrix-engine `fibonacci_exact` returns. -/
theorem claim_C3_engines_agree (n : Nat) :
    FastDoubling.fibonacci_exact (n : Int)
      = Except.ok (FibStairs.fibonacci_exact (n : Int)) := by
  rw [FastDoubling.fibonacci_exact, if_neg (by omega), fd_iterative_eq_fib,
    matrix_exact_eq_fib]

/-- Claim C10: for every n >= 0, the recursive fast-doubling formulation
and the iterative fast-doubling formulation return the same pair of
exact big integers. -/
theorem claim_C10_helper_eq_iterative (n : Nat) :
    FastDoubling.fibonacci_fast_doubling_helper n
      = FastDoubling.fibonacci_fast_doubling_iterative (n : Int) := by
  rw [fd_helper_eq_fib, fd_iterative_eq_fib]

/-- Claim C4: for every start <= end with start >= 0 (and any worker
count and ambient thread-count state), `fibonacci_range` returns a
buffer of length end - start + 1 whose slot i holds the exact decimal
string of F(start + i). -/
theorem claim_C4_range_buffer_correct (start end_ nt : Int) (st : OmpState)
    (h1 : 0 ≤ start) (h2 : start ≤ end_) :
    ∃ (buf : List String) (st1 : OmpState),
      BindingsFD.fibonacci_range start end_ nt st = .ok (buf, st1)
        ∧ buf.length = (end_ - start + 1).toNat
        ∧ ∀ i : Nat, i < (end_ - start + 1).toNat →
            buf[i]? = some (Nat.repr (fibSpec (start + (i : Int)).toNat)) := by
  refine ⟨_, _, fd_range_ok start end_ nt st h1 h2, ?_, ?_⟩
  · simp
  · intro i hi
    rw [List.getElem?_map, List.getElem?_range hi]
    simp [fibSpec_eq_fib]

/-- Witness for claim C4 at the concrete range [10, 12]. -/
theorem claim_C4_witness :
    (0 : Int) ≤ 10 ∧ (10 : Int) ≤ 12 ∧
      (∃ (buf : List String) (st1 : OmpState),
        BindingsFD.fibonacci_range 10 12 (-1) ⟨8⟩ = .ok (buf, st1)
          ∧ buf.length = ((12 : Int) - 10 + 1).toNat
          ∧ ∀ i : Nat, i < ((12 : Int) - 10 + 1).toNat →
              buf[i]? = some (Nat.repr (fibSpec ((10 : Int) + (i : Int)).toNat))) :=
  ⟨by decide, by decide,
    claim_C4_range_buffer_correct 10 12 (-1) ⟨8⟩ (by decide) (by decide)⟩

/-- Counterexample to claim C5 as stated: the matrix-exponentiation
engine's `fibonacci_exact` (fib_stairs.cpp lines 60-73) does not fail on
the negative index -1; it performs no validation, its power loop never
runs, and it silently returns the identity matrix entry 1. -/
theorem claim_C5_counterexample : FibStairs.fibonacci_exact (-1) = 1 := by
  rw [FibStairs.fibonacci_exact, if_neg (by decide), if_neg (by decide), if_neg (by decide),
    FibStairs.matrix_pow, if_neg (by decide), if_neg (by decide),
    FibStairs.matrix_pow_loop, if_neg (by decide)]

/-- Claim C5 amended: for every negative index, the fast-doubling
engine's `fibonacci_exact` and the binding-level `fibonacci` wrappers of
both engines fail with InvalidArgument, but the matrix-exponentiation
engine's `fibonacci_exact` in fib_stairs.cpp performs no negative-index
check and silently returns 1. -/
theorem claim_C5_amended_negative_handling (n : Int) (hn : n < 0) :
    FastDoubling.fibonacci_exact n
        = .error (.invalidArgument "n must be non-negative")
      ∧ BindingsFD.fibonacci n = .error (.invalidArgument "n must be non-negative")
      ∧ BindingsMatrix.fibonacci n = .error (.invalidArgument "n must be non-negative")
      ∧ FibStairs.fibonacci_exact n = 1 := by
  refine ⟨?_, ?_, ?_, ?_⟩
  · rw [FastDoubling.fibonacci_exact, if_pos hn]
  · rw [BindingsFD.fibonacci, if_pos hn]
  · rw [BindingsMatrix.fibonacci, if_pos hn]
  · rw [FibStairs.fibonacci_exact, if_neg (by omega), if_neg (by omega), if_neg (by omega),
      FibStairs.matrix_pow, if_neg (by omega), if_neg (by omega),
      FibStairs.matrix_pow_loop, if_neg (by omega)]

/-- Witness for the amended claim C5 at n = -1. -/
theorem claim_C5_witness :
    (-1 : Int) < 0 ∧
      (FastDoubling.fibonacci_exact (-1)
          = .error (.invalidArgument "n must be non-negative")
        ∧ BindingsFD.fibonacci (-1) = .error (.invalidArgument "n must be non-negative")
        ∧ BindingsMatrix.fibonacci (-1) = .error (.invalidArgument "n must be non-negative")
        ∧ FibStairs.fibonacci_exact (-1) = 1) :=
  ⟨by decide, claim_C5_amended_negative_handling (-1) (by decide)⟩

/-- Claim C6: `fibonacci_range` (both binding variants) fails exactly
when start < 0, end < 0 or start > end, every failure is an
InvalidArgument error, and on success the thread-count setting used is
worker_count when positive and the ambient maximum otherwise. -/
theorem claim_C6_range_error_conditions (start end_ nt : Int) (st : OmpState) :
    ((∃ e, BindingsFD.fibonacci_range start end_ nt st = .error e)
        ↔ (start < 0 ∨ end_ < 0 ∨ start > end_))
      ∧ ((∃ e, BindingsMatrix.fibonacci_range start end_ nt st = .error e)
        ↔ (start < 0 ∨ end_ < 0 ∨ start > end_))
      ∧ (∀ e, BindingsFD.fibonacci_range start end_ nt st = .error e →
          ∃ msg, e = .invalidArgument msg)
      ∧ (∀ e, BindingsMatrix.fibonacci_range start end_ nt st = .error e →
          ∃ msg, e = .invalidArgument msg)
      ∧ (∀ buf st1, BindingsFD.fibonacci_range start end_ nt st = .ok (buf, st1) →
          st1 = if 0 < nt then omp_set_num_threads nt st
                else omp_set_num_threads (omp_get_max_threads st) st)
      ∧ (∀ buf st1, BindingsMatrix.fibonacci_range start end_ nt st = .ok (buf, st1) →
          st1 = if 0 < nt then omp_set_num_threads nt st
                else omp_set_num_threads (omp_get_max_threads st) st) := by
  by_cases hv : start < 0 ∨ end_ < 0
  · have hFD : BindingsFD.fibonacci_range start end_ nt st
        = .error (.invalidArgument "start and end must be non-negative") := by
      rw [BindingsFD.fibonacci_range, if_pos hv]
    have hM : BindingsMatrix.fibonacci_range start end_ nt st
        = .error (.invalidArgument "start and end must be non-negative") := by
      rw [BindingsMatrix.fibonacci_range, if_pos hv]
    refine ⟨⟨fun _ => by tauto, fun _ => ⟨_, hFD⟩⟩,
            ⟨fun _ => by tauto, fun _ => ⟨_, hM⟩⟩, ?_, ?_, ?_, ?_⟩
    · intro e he
      rw [hFD] at he
      injection he with h
      exact ⟨_, h.symm⟩
    · intro e he
      rw [hM] at he
      injection he with h
      exact ⟨_, h.symm⟩
    · intro buf st1 hok
      rw [hFD] at hok
      exact Except.noConfusion hok
    · intro buf st1 hok
      rw [hM] at hok
      exact Except.noConfusion hok
  · push_neg at hv
    by_cases hg : start > end_
    · have hFD : BindingsFD.fibonacci_range start end_ nt st
          = .error (.invalidArgument "start must be <= end") := by
        rw [BindingsFD.fibonacci_range, if_neg (by omega), if_pos hg]
      have hM : BindingsMatrix.fibonacci_range start end_ nt st
          = .error (.invalidArgument "start must be <= end") := by
        rw [BindingsMatrix.fibonacci_range, if_neg (by omega), if_pos hg]
      refine ⟨⟨fun _ => by tauto, fun _ => ⟨_, hFD⟩⟩,
              ⟨fun _ => by tauto, fun _ => ⟨_, hM⟩⟩, ?_, ?_, ?_, ?_⟩
      · intro e he
        rw [hFD] at he
        injection he with h
        exact ⟨_, h.symm⟩
      · intro e he
        rw [hM] at he
        injection he with h
        exact ⟨_, h.symm⟩
      · intro buf st1 hok
        rw [hFD] at hok
        exact Except.noConfusion hok
      · intro buf st1 hok
        rw [hM] at hok
        exact Except.noConfusion hok
    · obtain ⟨ha, hb⟩ := hv
      have h2 : start ≤ end_ := by omega
      have hFD := fd_range_ok start end_ nt st (by omega) h2
      have hM := matrix_range_ok start end_ nt st (by omega) h2
      refine ⟨⟨?_, ?_⟩, ⟨?_, ?_⟩, ?_, ?_, ?_, ?_⟩
      · rintro ⟨e, he⟩
        rw [hFD] at he
        exact Except.noConfusion he
      · intro hor
        rcases hor with h | h | h <;> omega
      · rintro ⟨e, he⟩
        rw [hM] at he
        exact Except.noConfusion he
      · intro hor
        rcases hor with h | h | h <;> omega
      · intro e he
        rw [hFD] at he
        exact Except.noConfusion he
      · intro e he
        rw [hM] at he
        exact Except.noConfusion he
      · intro buf st1 hok
        rw [hFD] at hok
        injection hok with h
        have hsnd := congrArg Prod.snd h
        exact hsnd.symm
      · intro buf st1 hok
        rw [hM] at hok
        injection hok with h
        have hsnd := congrArg Prod.snd h
        exact hsnd.symm

/-- Witness for claim C6: start > end is rejected. -/
theorem claim_C6_witness :
    ∃ e, BindingsFD.fibonacci_range 10 5 3 ⟨8⟩ = .error e :=
  (claim_C6_range_error_conditions 10 5 3 ⟨8⟩).1.mpr (by decide)

/-- Claim C7: for a fixed (start, end) pair the buffer outcome of
`fibonacci_range` (value or error, forgetting the thread-count state) is
identical for any two worker counts and any two ambient thread-count
states: the result is deterministic and independent of worker_count. -/
theorem claim_C7_range_worker_count_independent (start end_ w1 w2 : Int)
    (st1 st2 : OmpState) :
    Except.map Prod.fst (BindingsFD.fibonacci_range start end_ w1 st1)
      = Except.map Prod.fst (BindingsFD.fibonacci_range start end_ w2 st2) := by
  by_cases hv : start < 0 ∨ end_ < 0
  · simp only [BindingsFD.fibonacci_range, if_pos hv]
  · by_cases hg : start > end_
    · simp only [BindingsFD.fibonacci_range, if_neg hv, if_pos hg]
    · push_neg at hv
      have h2 : start ≤ end_ := by omega
      rw [fd_range_ok start end_ w1 st1 (by omega) h2,
        fd_range_ok start end_ w2 st2 (by omega) h2]
      rfl

/-- Claim C8: for every n >= 0, exact-mode `fibonacci_digit_count` (both
binding variants) returns the exact number of base-10 digits of F(n) —
the length of F(n)'s decimal representation — with digit_count(0) = 1;
in particular digit_count(1000) returns 209. -/
theorem claim_C8_digit_count_exact :
    (∀ n : Int, 0 ≤ n →
        BindingsFD.fibonacci_digit_count n
            = .ok (if n = 0 then 1 else ((Nat.repr (fibSpec n.toNat)).length : Int))
          ∧ BindingsMatrix.fibonacci_digit_count n
            = .ok (if n = 0 then 1 else ((Nat.repr (fibSpec n.toNat)).length : Int)))
      ∧ BindingsFD.fibonacci_digit_count 1000 = .ok 209 := by
  constructor
  · intro n hn
    by_cases h0 : n = 0
    · subst h0
      constructor <;> rfl
    · obtain ⟨m, rfl⟩ : ∃ m : Nat, n = (m : Int) := ⟨n.toNat, by omega⟩
      constructor
      · rw [BindingsFD.fibonacci_digit_count, if_neg (by omega), if_neg h0,
          fd_exact_gmp_ok m, if_neg h0]
        simp [Except.map, mpz_sizeinbase10, Int.toNat_natCast, fibSpec_eq_fib]
      · rw [BindingsMatrix.fibonacci_digit_count, if_neg (by omega), if_neg h0,
          BindingsMatrix.fibonacci_exact_gmp, matrix_exact_eq_fib m, if_neg h0]
        simp [mpz_sizeinbase10, Int.toNat_natCast, fibSpec_eq_fib]
  · rfl

/-- Witness for claim C8 at n = 10. -/
theorem claim_C8_witness :
    (0 : Int) ≤ 10 ∧
      BindingsFD.fibonacci_digit_count 10
        = .ok (if (10 : Int) = 0 then 1
               else ((Nat.repr (fibSpec (10 : Int).toNat)).length : Int)) :=
  ⟨by decide, (claim_C8_digit_count_exact.1 10 (by decide)).1⟩

/-- Counterexample to claim C9 as stated: a valid `fibonacci_range` call
with worker_count 2 from ambient thread-count setting 8 returns with the
process-wide thread-count setting durably changed to 2, so observable
state beyond the returned buffer differs after the call. -/
theorem claim_C9_counterexample :
    BindingsFD.fibonacci_range 0 0 2 ⟨8⟩ = .ok (["0"], ⟨2⟩)
      ∧ (⟨2⟩ : OmpState) ≠ (⟨8⟩ : OmpState) := by
  exact ⟨rfl, by decide⟩

/-- Claim C9 amended: `fibonacci_range` touches no state other than the
returned buffer and the process-wide thread-count setting; the
thread-count setting is left unchanged when worker_count is non-positive
(it is re-set to its current value) but is durably set to worker_count
when worker_count is positive. -/
theorem claim_C9_amended_thread_state (start end_ nt : Int) (st : OmpState)
    (buf : List String) (st1 : OmpState)
    (hok : BindingsFD.fibonacci_range start end_ nt st = .ok (buf, st1)) :
    st1 = if 0 < nt then ⟨nt⟩ else st := by
  by_cases hv : start < 0 ∨ end_ < 0
  · rw [BindingsFD.fibonacci_range, if_pos hv] at hok
    exact Except.noConfusion hok
  · by_cases hg : start > end_
    · rw [BindingsFD.fibonacci_range, if_neg hv, if_pos hg] at hok
      exact Except.noConfusion hok
    · push_neg at hv
      rw [fd_range_ok start end_ nt st (by omega) (by omega)] at hok
      injection hok with h
      have hsnd := congrArg Prod.snd h
      exact hsnd.symm

/-- Witness for the amended claim C9 at a concrete valid call. -/
theorem claim_C9_witness :
    BindingsFD.fibonacci_range 1 2 3 ⟨5⟩ = .ok (["1", "1"], ⟨3⟩)
      ∧ (⟨3⟩ : OmpState) = if (0 : Int) < 3 then ⟨3⟩ else ⟨5⟩ :=
  ⟨rfl, claim_C9_amended_thread_state 1 2 3 ⟨5⟩ ["1", "1"] ⟨3⟩ rfl⟩
